import Mathlib

/-!
Shallow embedding of the streaming buffer-management and silence-gating core of
the RNNoise audio-worklet processor (rnnoise-worklet-processor.js).

Sample values are modelled as exact rationals extended with the three
non-finite IEEE classes (NaN, +inf, -inf); all the arithmetic the claims
exercise (scaling by the power of two 32768, short sums and means of small
values, comparisons) is exact in binary floating point, so the rational model
is faithful on the inputs the claims quantify over.  The foreign WASM engine
is abstracted as a function from the scaled input scratch contents to an
optional pair of output scratch contents and a vad score; a `none` result
models an exception thrown during the engine-call path.  The unbounded JS
`while` loop that drains the input buffer is modelled with an explicit fuel
argument; every iteration removes `frameSize` samples, so a fuel equal to the
current buffer length dominates the iteration count whenever `frameSize > 0`
(the only regime the claims are about, and the only one where the JS loop
terminates).
-/

namespace Rnnoise

/-- Value class of one 32-bit float sample: a finite rational or one of the
three non-finite classes. -/
inductive F32 where
  | fin (q : ℚ)
  | nan
  | pinf
  | ninf
deriving DecidableEq

/-- JS `isFinite`. -/
def F32.isFinite : F32 → Bool
  | .fin _ => true
  | _ => false

/-- Multiplication by a positive finite constant (sign classes preserved,
NaN propagates), as in IEEE arithmetic. -/
def F32.mulPos (c : ℚ) : F32 → F32
  | .fin q => .fin (q * c)
  | .nan => .nan
  | .pinf => .pinf
  | .ninf => .ninf

/-- Division by a positive finite constant. -/
def F32.divPos (c : ℚ) : F32 → F32
  | .fin q => .fin (q / c)
  | .nan => .nan
  | .pinf => .pinf
  | .ninf => .ninf

/-- JS `x > c` for a finite constant c (NaN compares false). -/
def F32.gtc : F32 → ℚ → Bool
  | .fin q, c => decide (c < q)
  | .nan, _ => false
  | .pinf, _ => true
  | .ninf, _ => false

/-- JS `x < c` for a finite constant c (NaN compares false). -/
def F32.ltc : F32 → ℚ → Bool
  | .fin q, c => decide (q < c)
  | .nan, _ => false
  | .pinf, _ => false
  | .ninf, _ => true

/-- SampleScaler, forward direction: `scaledFrame[i] = frame[i] * 32768`
(processFrame, line 165). -/
def toEngineDomain (x : F32) : F32 := x.mulPos 32768

/-- SampleScaler, reverse direction: `sample = outputView[i] / 32768` followed
by the two clamping ifs (processFrame, lines 184-188). -/
def fromEngineDomain (y : F32) : F32 :=
  let sample := y.divPos 32768
  let s1 := if sample.gtc 1 then F32.fin 1 else sample
  if s1.ltc (-1) then F32.fin (-1) else s1

/-- Mutable fields of RnnoiseWorkletProcessor that the claims exercise.
`rnnoiseModule` and `memory` record whether the corresponding references are
non-null; `state`, `pcmInputBuf`, `pcmOutputBuf` are the numeric handle and
pointers (0 is falsy, i.e. null/unallocated). -/
structure Processor where
  isDestroy : Bool
  rnnoiseModule : Bool
  frameSize : ℕ
  state : ℕ
  pcmInputBuf : ℕ
  pcmOutputBuf : ℕ
  memory : Bool
  inputBuffer : List F32
  outputBuffer : List F32
  vadHistory : List ℚ
  silenceThreshold : ℚ
  silenceCounter : ℕ
  maxSilenceFrames : ℕ
deriving DecidableEq

/-- Constructor state (lines 5-22). -/
def Processor.initial : Processor :=
  { isDestroy := false
    rnnoiseModule := false
    frameSize := 0
    state := 0
    pcmInputBuf := 0
    pcmOutputBuf := 0
    memory := false
    inputBuffer := []
    outputBuffer := []
    vadHistory := []
    silenceThreshold := 1/10
    silenceCounter := 0
    maxSilenceFrames := 10 }

/-- The truthiness test repeated in `processFrame` (line 141) and `process`
(line 213): every engine resource is non-null. -/
def engineReady (p : Processor) : Bool :=
  p.rnnoiseModule && decide (p.state ≠ 0) && p.memory &&
    decide (p.pcmInputBuf ≠ 0) && decide (p.pcmOutputBuf ≠ 0)

/-- Abstract engine call: from the scaled contents of the input scratch
region to the contents of the output scratch region plus the returned vad
score; `none` models an exception thrown anywhere on the engine-call path. -/
def Raw : Type := List F32 → Option (List F32 × ℚ)

/-- Size-mismatch guard of `processFrame` (lines 152-155): fresh zero-filled
frame of length n with the first `min frame.length n` input samples copied in. -/
def padTo (n : ℕ) (frame : List F32) : List F32 :=
  frame.take n ++ List.replicate (n - frame.length) (F32.fin 0)

/-- EngineAdapter.processFrame (lines 140-199).  The output scratch region is
read back as exactly `frameSize` slots. -/
def processFrame (raw : Raw) (p : Processor) (frame : List F32) : List F32 × ℚ :=
  if ¬ engineReady p then (frame, 0)
  else
    let frame := if frame.length ≠ p.frameSize then padTo p.frameSize frame else frame
    let scaled := frame.map toEngineDomain
    match raw scaled with
    | some (outView, vad) =>
        ((List.range p.frameSize).map (fun i => fromEngineDomain (outView.getD i (F32.fin 0))), vad)
    | none => (frame, 0)

/-- The VadWindow contents after pushing one score (updateVadHistory,
lines 269-272): append, then evict the oldest entry when the length
exceeds 5. -/
def windowAfter (p : Processor) (vad : ℚ) : List ℚ :=
  let h0 := p.vadHistory ++ [vad]
  if 5 < h0.length then h0.tail else h0

/-- VadSmoother.update (updateVadHistory, lines 268-283). -/
def updateVadHistory (p : Processor) (vad : ℚ) : Processor :=
  let h := windowAfter p vad
  { p with
    vadHistory := h
    silenceCounter :=
      if h.sum / (h.length : ℚ) < p.silenceThreshold then p.silenceCounter + 1 else 0 }

/-- SilenceGate (shouldSkipFrame, lines 289-291):
`silenceCounter > maxSilenceFrames`. -/
def shouldSkipFrame (p : Processor) : Bool :=
  decide (p.maxSilenceFrames < p.silenceCounter)

/-- The finite channel values at sample index i, in channel order
(the inner loop of mergeChannels, lines 309-318: bounds check then
`isFinite` filter). -/
def finVals (channels : List (List F32)) (i : ℕ) : List ℚ :=
  channels.filterMap (fun ch =>
    match ch.getD i F32.nan with
    | F32.fin q => if i < ch.length then some q else none
    | _ => none)

/-- One output sample of the merge: mean of the valid values, 0 when none
(line 321). -/
def mergeAt (channels : List (List F32)) (i : ℕ) : F32 :=
  let vals := finVals channels i
  if 0 < vals.length then F32.fin (vals.sum / (vals.length : ℚ)) else F32.fin 0

/-- ChannelMerger (mergeChannels, lines 298-325).  Zero channels give an
empty output; a single channel is returned as a value copy; otherwise the
output has the first channel's length and averages the finite values. -/
def mergeChannels (channels : List (List F32)) : List F32 :=
  match channels with
  | [] => []
  | [c] => c
  | c0 :: _ => (List.range c0.length).map (mergeAt channels)

/-- outputSilence (lines 331-337): `channel.fill(0)` on every channel of
every output. -/
def outputSilence (outputs : List (List (List F32))) : List (List (List F32)) :=
  outputs.map (fun output => output.map (fun channel =>
    List.replicate channel.length (F32.fin 0)))

/-- `channel.set(src.subarray(0, k), 0)` where at most `min k channel.length`
samples are written: the written head followed by the untouched tail. -/
def setFront (src : List F32) (k : ℕ) (channel : List F32) : List F32 :=
  src.take (min k channel.length) ++ channel.drop (min k channel.length)

/-- outputPassthrough (lines 344-363). -/
def outputPassthrough (inputs outputs : List (List (List F32))) :
    List (List (List F32)) :=
  match inputs with
  | [] => outputSilence outputs
  | firstInput :: _ =>
    match firstInput with
    | [] => outputSilence outputs
    | sourceChannel :: _ =>
      outputs.map (fun output => output.map (fun channel =>
        if channel.length = sourceChannel.length then sourceChannel
        else setFront sourceChannel sourceChannel.length channel))

/-- The `samplesToCopy` fold of outputToChannels (lines 373-377): minimum of
the start value and every destination channel length. -/
def minQuantum (outputs : List (List (List F32))) (start : ℕ) : ℕ :=
  outputs.foldl (fun acc output =>
    output.foldl (fun a channel => min a channel.length) acc) start

/-- OutputAssembler.fill (outputToChannels, lines 369-400): returns the new
OutputQueue and the updated destinations. -/
def outputToChannels (buf : List F32) (outputs : List (List (List F32))) :
    List F32 × List (List (List F32)) :=
  if buf.length = 0 then (buf, outputs)
  else
    let samplesToCopy := minQuantum outputs buf.length
    if samplesToCopy = 0 then (buf, outputs)
    else
      let outputs' := outputs.map (fun output => output.map (fun channel =>
        setFront buf samplesToCopy channel))
      let buf' := if samplesToCopy < buf.length then buf.drop samplesToCopy else []
      (buf', outputs')

/-- Body of one iteration of the frame-draining `while` loop of `process`
(lines 235-256): slice one frame off the InputQueue, run it through the
engine adapter, update the VAD history, and append the processed frame to
the OutputQueue unless the silence gate drops it. -/
def stepState (raw : Raw) (p : Processor) : Processor :=
  let frame := p.inputBuffer.take p.frameSize
  let p1 := { p with inputBuffer := p.inputBuffer.drop p.frameSize }
  let pv := processFrame raw p1 frame
  let p2 := updateVadHistory p1 pv.2
  if shouldSkipFrame p2 then p2
  else { p2 with outputBuffer := p2.outputBuffer ++ pv.1 }

/-- The draining `while` loop (lines 235-256) with explicit fuel; also
returns the list of extracted frames in extraction order.  Each iteration
removes `frameSize` samples, so fuel `inputBuffer.length` dominates the
iteration count whenever `frameSize > 0`. -/
def processLoop (raw : Raw) : ℕ → Processor → Processor × List (List F32)
  | 0, p => (p, [])
  | fuel + 1, p =>
    if p.frameSize ≤ p.inputBuffer.length then
      let r := processLoop raw fuel (stepState raw p)
      (r.1, p.inputBuffer.take p.frameSize :: r.2)
    else (p, [])

/-- The per-callback entry point `process(inputs, outputs)` (lines 207-262):
returns the continue flag, the new processor state and the updated output
destinations. -/
def process (raw : Raw) (p : Processor) (inputs outputs : List (List (List F32))) :
    Bool × Processor × List (List (List F32)) :=
  if p.isDestroy then (false, p, outputs)
  else if ¬ engineReady p then (true, p, outputPassthrough inputs outputs)
  else
    match inputs with
    | [] => (true, p, outputSilence outputs)
    | inputSources :: _ =>
      if inputSources.length = 0 then (true, p, outputSilence outputs)
      else
        let monoInput := mergeChannels inputSources
        let p1 := { p with inputBuffer := p.inputBuffer ++ monoInput }
        let r := processLoop raw p1.inputBuffer.length p1
        let o := outputToChannels r.1.outputBuffer outputs
        (true, { r.1 with outputBuffer := o.1 }, o.2)

/-- Observable engine-resource releases performed by `destroy`. -/
inductive DestroyEvent where
  | rnnoiseDestroy (handle : ℕ)
  | free (ptr : ℕ)
deriving DecidableEq

/-- destroy (lines 405-435): sets the destroyed flag, releases the handle
and the two scratch regions when present, nulls the references and clears
every buffer; returns the released-resource events in call order. -/
def destroy (p : Processor) : Processor × List DestroyEvent :=
  let p1 := { p with isDestroy := true }
  if p1.rnnoiseModule then
    let e1 : List DestroyEvent :=
      if p1.state ≠ 0 then [DestroyEvent.rnnoiseDestroy p1.state] else []
    let p2 := if p1.state ≠ 0 then { p1 with state := 0 } else p1
    let e2 : List DestroyEvent :=
      if p2.pcmInputBuf ≠ 0 then [DestroyEvent.free p2.pcmInputBuf] else []
    let p3 := if p2.pcmInputBuf ≠ 0 then { p2 with pcmInputBuf := 0 } else p2
    let e3 : List DestroyEvent :=
      if p3.pcmOutputBuf ≠ 0 then [DestroyEvent.free p3.pcmOutputBuf] else []
    let p4 := if p3.pcmOutputBuf ≠ 0 then { p3 with pcmOutputBuf := 0 } else p3
    ({ p4 with
        rnnoiseModule := false
        memory := false
        inputBuffer := []
        outputBuffer := []
        vadHistory := []
        silenceCounter := 0 }, e1 ++ e2 ++ e3)
  else
    ({ p1 with
        inputBuffer := []
        outputBuffer := []
        vadHistory := []
        silenceCounter := 0 }, [])

/-- Harness: one render callback's FrameAssembler work per chunk — append the
chunk to the InputQueue and drain full frames — iterated over a list of
chunks, accumulating the extracted frames. -/
def feedRounds (raw : Raw) (p : Processor) : List (List F32) → Processor × List (List F32)
  | [] => (p, [])
  | c :: cs =>
    let p1 := { p with inputBuffer := p.inputBuffer ++ c }
    let r := processLoop raw p1.inputBuffer.length p1
    let r' := feedRounds raw r.1 cs
    (r'.1, r.2 ++ r'.2)

/-- Harness: feeding a sequence of vad scores through the smoother. -/
def feedVads (p : Processor) (vs : List ℚ) : Processor :=
  vs.foldl updateVadHistory p

/-- Harness: an engine stub that echoes its input scratch and reports a vad
score of zero. -/
def silentRaw : Raw := fun s => some (s, 0)

/-- Harness: a processor in the Ready state with frame size F and all other
fields as after construction. -/
def readyP (F : ℕ) : Processor :=
  { Processor.initial with
    rnnoiseModule := true
    state := 1
    memory := true
    pcmInputBuf := 1
    pcmOutputBuf := 2
    frameSize := F }

/-- The engine-configuration fields that the frame loop never writes. -/
def cfg (p : Processor) : Bool × ℕ × ℕ × ℕ × ℕ × Bool × ℚ × ℕ :=
  (p.rnnoiseModule, p.frameSize, p.state, p.pcmInputBuf, p.pcmOutputBuf,
   p.memory, p.silenceThreshold, p.maxSilenceFrames)

/-- Harness: a fully initialized processor with distinct handle and scratch
pointers, for exercising teardown. -/
def pC7 : Processor :=
  { readyP 3 with state := 5, pcmInputBuf := 7, pcmOutputBuf := 9 }

/-- Harness: Ready-state processor holding five one-sample frames of quiet
input with the silence gate limit set to 2. -/
def pC1 : Processor :=
  { readyP 1 with
    maxSilenceFrames := 2
    inputBuffer := [F32.fin (1/100), F32.fin (2/100), F32.fin (3/100),
                    F32.fin (4/100), F32.fin (5/100)] }

theorem cfg_updateVadHistory (p : Processor) (v : ℚ) :
    cfg (updateVadHistory p v) = cfg p := rfl

theorem cfg_stepState (raw : Raw) (p : Processor) :
    cfg (stepState raw p) = cfg p := by
  dsimp only [stepState]
  split <;> rfl

theorem stepState_inputBuffer (raw : Raw) (p : Processor) :
    (stepState raw p).inputBuffer = p.inputBuffer.drop p.frameSize := by
  dsimp only [stepState]
  split <;> rfl

theorem stepState_frameSize (raw : Raw) (p : Processor) :
    (stepState raw p).frameSize = p.frameSize := by
  dsimp only [stepState]
  split <;> rfl

theorem processFrame_cfg_eq (raw : Raw) {p q : Processor} (h : cfg p = cfg q) :
    processFrame raw p = processFrame raw q := by
  simp only [cfg, Prod.mk.injEq] at h
  obtain ⟨h1, h2, h3, h4, h5, h6, h7, h8⟩ := h
  funext f
  simp only [processFrame, engineReady, h1, h2, h3, h4, h5, h6]

/-- Draining pass: the extracted frames followed by the remaining InputQueue
reconstitute the original InputQueue, the remainder has length `len % F`,
every frame has length exactly F, and the frame size is unchanged. -/
theorem processLoop_spec (raw : Raw) :
    ∀ (fuel : ℕ) (p : Processor), 0 < p.frameSize → p.inputBuffer.length ≤ fuel →
      (processLoop raw fuel p).2.flatten ++ (processLoop raw fuel p).1.inputBuffer
          = p.inputBuffer ∧
      (processLoop raw fuel p).1.inputBuffer.length
          = p.inputBuffer.length % p.frameSize ∧
      (∀ f ∈ (processLoop raw fuel p).2, f.length = p.frameSize) ∧
      (processLoop raw fuel p).1.frameSize = p.frameSize := by
  intro fuel
  induction fuel with
  | zero =>
    intro p hF hlen
    have h0 : p.inputBuffer.length = 0 := Nat.le_zero.mp hlen
    refine ⟨?_, ?_, ?_, ?_⟩
    · simp [processLoop]
    · simp [processLoop, h0]
    · simp [processLoop]
    · rfl
  | succ fuel ih =>
    intro p hF hlen
    by_cases hg : p.frameSize ≤ p.inputBuffer.length
    · have hFs : (stepState raw p).frameSize = p.frameSize := stepState_frameSize raw p
      have hin : (stepState raw p).inputBuffer = p.inputBuffer.drop p.frameSize :=
        stepState_inputBuffer raw p
      have hlen' : (stepState raw p).inputBuffer.length ≤ fuel := by
        rw [hin, List.length_drop]; omega
      have hF' : 0 < (stepState raw p).frameSize := by rw [hFs]; exact hF
      obtain ⟨ih1, ih2, ih3, ih4⟩ := ih (stepState raw p) hF' hlen'
      rw [hin] at ih1 ih2
      rw [hFs] at ih2 ih3 ih4
      simp only [processLoop, if_pos hg]
      refine ⟨?_, ?_, ?_, ih4⟩
      · rw [List.flatten_cons, List.append_assoc, ih1, List.take_append_drop]
      · rw [ih2, List.length_drop]
        exact (Nat.mod_eq_sub_mod hg).symm
      · intro f hf
        rcases List.mem_cons.mp hf with hf | hf
        · rw [hf, List.length_take]; omega
        · exact ih3 f hf
    · have hlt : p.inputBuffer.length < p.frameSize := Nat.lt_of_not_le hg
      simp only [processLoop, if_neg hg]
      refine ⟨?_, ?_, ?_, ?_⟩
      · simp
      · exact (Nat.mod_eq_of_lt hlt).symm
      · simp
      · trivial

theorem flatten_length_of_all (F : ℕ) :
    ∀ (l : List (List F32)), (∀ f ∈ l, f.length = F) → l.flatten.length = l.length * F := by
  intro l
  induction l with
  | nil => simp
  | cons a t ih =>
    intro h
    have ha : a.length = F := h a (by simp)
    have ht := ih (fun f hf => h f (by simp [hf]))
    simp only [List.flatten_cons, List.length_append, List.length_cons, ha, ht, Nat.succ_mul]
    omega

/-- Draining pass: exactly `len / F` frames are extracted. -/
theorem processLoop_count (raw : Raw) (fuel : ℕ) (p : Processor)
    (hF : 0 < p.frameSize) (hlen : p.inputBuffer.length ≤ fuel) :
    (processLoop raw fuel p).2.length = p.inputBuffer.length / p.frameSize := by
  obtain ⟨h1, h2, h3, _⟩ := processLoop_spec raw fuel p hF hlen
  have hjoin : (processLoop raw fuel p).2.flatten.length
      + (processLoop raw fuel p).1.inputBuffer.length = p.inputBuffer.length := by
    rw [← List.length_append, h1]
  rw [flatten_length_of_all p.frameSize _ h3, h2] at hjoin
  have hdm := Nat.div_add_mod' p.inputBuffer.length p.frameSize
  have hmul : (processLoop raw fuel p).2.length * p.frameSize
      = (p.inputBuffer.length / p.frameSize) * p.frameSize := by omega
  exact Nat.eq_of_mul_eq_mul_right hF hmul

/-- Any interleaving of appends and draining passes: the total stream is
chunk-order preserving, every extracted frame has length F, and the final
remainder length is the total sample count modulo F. -/
theorem feedRounds_spec (raw : Raw) :
    ∀ (chunks : List (List F32)) (p : Processor), 0 < p.frameSize →
      p.inputBuffer.length < p.frameSize →
      (feedRounds raw p chunks).2.flatten ++ (feedRounds raw p chunks).1.inputBuffer
          = p.inputBuffer ++ chunks.flatten ∧
      (feedRounds raw p chunks).1.inputBuffer.length
          = (p.inputBuffer.length + chunks.flatten.length) % p.frameSize ∧
      (∀ f ∈ (feedRounds raw p chunks).2, f.length = p.frameSize) ∧
      (feedRounds raw p chunks).1.frameSize = p.frameSize := by
  intro chunks
  induction chunks with
  | nil =>
    intro p hF hlt
    refine ⟨?_, ?_, ?_, ?_⟩
    · simp [feedRounds]
    · simp [feedRounds, Nat.mod_eq_of_lt hlt]
    · simp [feedRounds]
    · rfl
  | cons c cs ih =>
    intro p hF hlt
    have hF1 : 0 < ({ p with inputBuffer := p.inputBuffer ++ c } : Processor).frameSize := hF
    obtain ⟨l1, l2, l3, l4⟩ := processLoop_spec raw
      ({ p with inputBuffer := p.inputBuffer ++ c } : Processor).inputBuffer.length
      { p with inputBuffer := p.inputBuffer ++ c } hF1 le_rfl
    have hlt' : (processLoop raw
        ({ p with inputBuffer := p.inputBuffer ++ c } : Processor).inputBuffer.length
        { p with inputBuffer := p.inputBuffer ++ c }).1.inputBuffer.length
        < (processLoop raw
        ({ p with inputBuffer := p.inputBuffer ++ c } : Processor).inputBuffer.length
        { p with inputBuffer := p.inputBuffer ++ c }).1.frameSize := by
      rw [l4, l2]; exact Nat.mod_lt _ hF
    have hF' : 0 < (processLoop raw
        ({ p with inputBuffer := p.inputBuffer ++ c } : Processor).inputBuffer.length
        { p with inputBuffer := p.inputBuffer ++ c }).1.frameSize := by
      rw [l4]; exact hF
    obtain ⟨m1, m2, m3, m4⟩ := ih _ hF' hlt'
    simp only [feedRounds]
    rw [l4] at m2 m3 m4
    refine ⟨?_, ?_, ?_, m4⟩
    · rw [List.flatten_append, List.append_assoc, m1, ← List.append_assoc, l1]
      simp
    · rw [m2, l2, List.flatten_cons, List.length_append, List.length_append,
        Nat.mod_add_mod, Nat.add_assoc]
    · intro f hf
      rcases List.mem_append.mp hf with hf | hf
      · exact l3 f hf
      · exact m3 f hf

/-- C2: for a positive frame size, any way of splitting the input samples
across append calls yields exactly total/F extracted frames of F samples each
in input order, and leaves total mod F (in particular fewer than F) samples in
the InputQueue after the pass. -/
theorem c2_frame_extraction (raw : Raw) (p : Processor) (chunks : List (List F32))
    (hF : 0 < p.frameSize) (hbuf : p.inputBuffer = []) :
    (feedRounds raw p chunks).2.length = chunks.flatten.length / p.frameSize ∧
    (∀ f ∈ (feedRounds raw p chunks).2, f.length = p.frameSize) ∧
    (feedRounds raw p chunks).2.flatten ++ (feedRounds raw p chunks).1.inputBuffer
        = chunks.flatten ∧
    (feedRounds raw p chunks).1.inputBuffer.length
        = chunks.flatten.length % p.frameSize ∧
    (feedRounds raw p chunks).1.inputBuffer.length < p.frameSize := by
  have hlt : p.inputBuffer.length < p.frameSize := by rw [hbuf]; simpa using hF
  obtain ⟨h1, h2, h3, _⟩ := feedRounds_spec raw chunks p hF hlt
  rw [hbuf, List.nil_append] at h1
  rw [hbuf] at h2
  simp only [List.length_nil, Nat.zero_add] at h2
  have hlen : (feedRounds raw p chunks).2.flatten.length
      + (feedRounds raw p chunks).1.inputBuffer.length = chunks.flatten.length := by
    rw [← List.length_append, h1]
  rw [flatten_length_of_all p.frameSize _ h3, h2] at hlen
  have hdm := Nat.div_add_mod' chunks.flatten.length p.frameSize
  have hmul : (feedRounds raw p chunks).2.length * p.frameSize
      = chunks.flatten.length / p.frameSize * p.frameSize := by omega
  exact ⟨Nat.eq_of_mul_eq_mul_right hF hmul, h3, h1, h2, h2 ▸ Nat.mod_lt _ hF⟩

theorem c2_frame_extraction_witness :
    0 < (readyP 2).frameSize ∧ (readyP 2).inputBuffer = [] ∧
    (feedRounds silentRaw (readyP 2)
        [[F32.fin 0], [F32.fin 0, F32.fin 0], [F32.fin 0, F32.fin 0, F32.fin 0]]).2.length
      = ([[F32.fin 0], [F32.fin 0, F32.fin 0],
          [F32.fin 0, F32.fin 0, F32.fin 0]] : List (List F32)).flatten.length
        / (readyP 2).frameSize ∧
    (feedRounds silentRaw (readyP 2)
        [[F32.fin 0], [F32.fin 0, F32.fin 0], [F32.fin 0, F32.fin 0, F32.fin 0]]).1.inputBuffer.length
      < (readyP 2).frameSize :=
  ⟨by decide, rfl,
    (c2_frame_extraction silentRaw (readyP 2)
      [[F32.fin 0], [F32.fin 0, F32.fin 0], [F32.fin 0, F32.fin 0, F32.fin 0]]
      (by decide) rfl).1,
    (c2_frame_extraction silentRaw (readyP 2)
      [[F32.fin 0], [F32.fin 0, F32.fin 0], [F32.fin 0, F32.fin 0, F32.fin 0]]
      (by decide) rfl).2.2.2.2⟩

theorem sum_le_mul_of_all_lt {c : ℚ} :
    ∀ (l : List ℚ), (∀ x ∈ l, x < c) → l.sum ≤ (l.length : ℚ) * c := by
  intro l
  induction l with
  | nil => simp
  | cons a t ih =>
    intro h
    have ha : a < c := h a (by simp)
    have ht := ih (fun x hx => h x (by simp [hx]))
    simp only [List.sum_cons, List.length_cons]
    push_cast
    have hr : ((t.length : ℚ) + 1) * c = (t.length : ℚ) * c + c := by ring
    linarith

theorem mean_lt_of_all_lt {c : ℚ} :
    ∀ (l : List ℚ), l ≠ [] → (∀ x ∈ l, x < c) → l.sum / (l.length : ℚ) < c := by
  intro l hne h
  have hpos : (0 : ℚ) < (l.length : ℚ) := by
    exact_mod_cast List.length_pos.mpr hne
  rw [div_lt_iff₀ hpos]
  cases l with
  | nil => exact absurd rfl hne
  | cons a t =>
    have ha : a < c := h a (by simp)
    have ht := sum_le_mul_of_all_lt t (fun x hx => h x (by simp [hx]))
    simp only [List.sum_cons, List.length_cons]
    push_cast
    have hr : c * ((t.length : ℚ) + 1) = (t.length : ℚ) * c + c := by ring
    linarith

theorem windowAfter_mem (p : Processor) (v : ℚ) :
    ∀ x ∈ windowAfter p v, x ∈ p.vadHistory ∨ x = v := by
  intro x hx
  dsimp only [windowAfter] at hx
  split at hx
  · have hx' : x ∈ p.vadHistory ++ [v] := (List.tail_sublist _).subset hx
    simpa using hx'
  · simpa using hx

theorem windowAfter_ne_nil (p : Processor) (v : ℚ) : windowAfter p v ≠ [] := by
  dsimp only [windowAfter]
  split
  case isTrue h' =>
    apply List.ne_nil_of_length_pos
    simp only [List.length_tail, List.length_append, List.length_singleton] at h' ⊢
    omega
  case isFalse h' => simp

theorem windowAfter_length_le (p : Processor) (v : ℚ)
    (h : p.vadHistory.length ≤ 5) : (windowAfter p v).length ≤ 5 := by
  dsimp only [windowAfter]
  split
  case isTrue h' =>
    simp only [List.length_tail, List.length_append, List.length_singleton]
    omega
  case isFalse h' =>
    simp only [not_lt, List.length_append, List.length_singleton] at h'
    simp only [List.length_append, List.length_singleton]
    omega

/-- With a below-threshold score and an all-below-threshold window, one
smoother update increments the counter and keeps the window all below
threshold. -/
theorem updateVadHistory_counter_lt (p : Processor) (v : ℚ)
    (hv : v < p.silenceThreshold)
    (hwin : ∀ w ∈ p.vadHistory, w < p.silenceThreshold) :
    (updateVadHistory p v).silenceCounter = p.silenceCounter + 1 ∧
    (∀ w ∈ (updateVadHistory p v).vadHistory, w < p.silenceThreshold) := by
  have hall : ∀ x ∈ windowAfter p v, x < p.silenceThreshold := by
    intro x hx
    rcases windowAfter_mem p v x hx with h | h
    · exact hwin x h
    · rw [h]; exact hv
  have hmean := mean_lt_of_all_lt (windowAfter p v) (windowAfter_ne_nil p v) hall
  constructor
  · dsimp only [updateVadHistory]
    rw [if_pos hmean]
  · intro w hw
    exact hall w hw

theorem stepState_silenceThreshold (raw : Raw) (p : Processor) :
    (stepState raw p).silenceThreshold = p.silenceThreshold := by
  dsimp only [stepState]
  split <;> rfl

theorem stepState_maxSilenceFrames (raw : Raw) (p : Processor) :
    (stepState raw p).maxSilenceFrames = p.maxSilenceFrames := by
  dsimp only [stepState]
  split <;> rfl

/-- One loop iteration under all-silent vad scores: the counter increments by
one and the processed frame is appended exactly when the incremented counter
stays within the gate limit. -/
theorem stepState_silent (raw : Raw) (p : Processor)
    (hvad : ∀ f, (processFrame raw p f).2 < p.silenceThreshold)
    (hwin : ∀ w ∈ p.vadHistory, w < p.silenceThreshold) :
    (stepState raw p).silenceCounter = p.silenceCounter + 1 ∧
    (∀ w ∈ (stepState raw p).vadHistory, w < p.silenceThreshold) ∧
    (stepState raw p).outputBuffer
      = (if p.maxSilenceFrames < p.silenceCounter + 1 then p.outputBuffer
         else p.outputBuffer
           ++ (processFrame raw p (p.inputBuffer.take p.frameSize)).1) := by
  have hpf : processFrame raw { p with inputBuffer := p.inputBuffer.drop p.frameSize }
      = processFrame raw p := processFrame_cfg_eq raw rfl
  have hvlt : (processFrame raw { p with inputBuffer := p.inputBuffer.drop p.frameSize }
      (p.inputBuffer.take p.frameSize)).2 < p.silenceThreshold := by
    rw [hpf]; exact hvad _
  obtain ⟨hcnt, hwall⟩ := updateVadHistory_counter_lt
    { p with inputBuffer := p.inputBuffer.drop p.frameSize } _ hvlt hwin
  dsimp only [stepState]
  have hskipEq : shouldSkipFrame (updateVadHistory
        { p with inputBuffer := p.inputBuffer.drop p.frameSize }
        (processFrame raw { p with inputBuffer := p.inputBuffer.drop p.frameSize }
          (p.inputBuffer.take p.frameSize)).2)
      = decide (p.maxSilenceFrames < p.silenceCounter + 1) := by
    dsimp only [shouldSkipFrame]
    rw [hcnt]
    rfl
  rw [hskipEq]
  by_cases hsk : p.maxSilenceFrames < p.silenceCounter + 1
  · rw [if_pos (decide_eq_true hsk)]
    refine ⟨hcnt, hwall, ?_⟩
    rw [if_pos hsk]
    rfl
  · rw [if_neg (by simp [hsk])]
    refine ⟨hcnt, hwall, ?_⟩
    rw [if_neg hsk, hpf]
    rfl

/-- Draining pass under all-silent vad scores: the counter grows by the number
of extracted frames and the OutputQueue receives exactly the processed images
of the first `maxSilenceFrames - silenceCounter` extracted frames. -/
theorem silentLoop (raw : Raw) :
    ∀ (fuel : ℕ) (p : Processor),
      (∀ f, (processFrame raw p f).2 < p.silenceThreshold) →
      (∀ w ∈ p.vadHistory, w < p.silenceThreshold) →
      (processLoop raw fuel p).1.outputBuffer
          = p.outputBuffer ++
            (((processLoop raw fuel p).2.take (p.maxSilenceFrames - p.silenceCounter)).map
              (fun f => (processFrame raw p f).1)).flatten ∧
      (processLoop raw fuel p).1.silenceCounter
          = p.silenceCounter + (processLoop raw fuel p).2.length := by
  intro fuel
  induction fuel with
  | zero =>
    intro p _ _
    constructor <;> simp [processLoop]
  | succ fuel ih =>
    intro p hvad hwin
    by_cases hg : p.frameSize ≤ p.inputBuffer.length
    · obtain ⟨hcnt, hwall, hout⟩ := stepState_silent raw p hvad hwin
      have hcfg : cfg (stepState raw p) = cfg p := cfg_stepState raw p
      have hvad' : ∀ f, (processFrame raw (stepState raw p) f).2
          < (stepState raw p).silenceThreshold := by
        intro f
        rw [processFrame_cfg_eq raw hcfg, stepState_silenceThreshold]
        exact hvad f
      have hwin' : ∀ w ∈ (stepState raw p).vadHistory,
          w < (stepState raw p).silenceThreshold := by
        rw [stepState_silenceThreshold]
        exact hwall
      obtain ⟨o1, o2⟩ := ih (stepState raw p) hvad' hwin'
      rw [processFrame_cfg_eq raw hcfg, stepState_maxSilenceFrames, hcnt, hout] at o1
      rw [hcnt] at o2
      simp only [processLoop, if_pos hg]
      constructor
      · rw [o1]
        by_cases hsk : p.maxSilenceFrames < p.silenceCounter + 1
        · rw [if_pos hsk]
          have h0 : p.maxSilenceFrames - (p.silenceCounter + 1) = 0 := by omega
          have h0' : p.maxSilenceFrames - p.silenceCounter = 0 := by omega
          simp [h0, h0']
        · rw [if_neg hsk]
          have hk : p.maxSilenceFrames - p.silenceCounter
              = (p.maxSilenceFrames - (p.silenceCounter + 1)) + 1 := by omega
          rw [hk, List.take_succ_cons, List.map_cons, List.flatten_cons, List.append_assoc]
      · rw [o2]
        simp only [List.length_cons]
        omega
    · simp only [processLoop, if_neg hg]
      constructor <;> simp

/-- C1 amended: from an empty window, zero counter and empty OutputQueue with
maxSilenceFrames = 2, draining five full below-threshold frames appends only
the processed frames 1 and 2 to the OutputQueue (frames 3, 4 and 5 — gated at
counter values 3, 4 and 5 — are dropped); in general the gate consults the
post-update counter and drops exactly when it exceeds maxSilenceFrames. -/
theorem c1_silence_gating (raw : Raw) (p : Processor)
    (hwin : p.vadHistory = []) (hc : p.silenceCounter = 0)
    (hmax : p.maxSilenceFrames = 2) (hout : p.outputBuffer = [])
    (hvad : ∀ f, (processFrame raw p f).2 < p.silenceThreshold)
    (hn : p.inputBuffer.length = 5 * p.frameSize) (hF : 0 < p.frameSize) :
    (processLoop raw p.inputBuffer.length p).2.length = 5 ∧
    (processLoop raw p.inputBuffer.length p).1.outputBuffer
      = (((processLoop raw p.inputBuffer.length p).2.take 2).map
          (fun f => (processFrame raw p f).1)).flatten ∧
    (processLoop raw p.inputBuffer.length p).1.silenceCounter = 5 ∧
    (∀ q : Processor, shouldSkipFrame q
        = decide (q.maxSilenceFrames < q.silenceCounter)) := by
  have hwin' : ∀ w ∈ p.vadHistory, w < p.silenceThreshold := by
    rw [hwin]; simp
  obtain ⟨o1, o2⟩ := silentLoop raw p.inputBuffer.length p hvad hwin'
  have hcount := processLoop_count raw p.inputBuffer.length p hF le_rfl
  have hdiv : p.inputBuffer.length / p.frameSize = 5 := by
    rw [hn]
    exact Nat.mul_div_cancel 5 hF
  rw [hdiv] at hcount
  refine ⟨hcount, ?_, ?_, fun q => rfl⟩
  · rw [o1, hout, hmax, hc, List.nil_append]
  · rw [o2, hc, hcount]

theorem c1_silence_gating_counterexample :
    (processLoop silentRaw 5 pC1).1.outputBuffer
      = [F32.fin (1/100), F32.fin (2/100)] ∧
    ([F32.fin (1/100), F32.fin (2/100)] : List F32)
      ≠ [F32.fin (1/100), F32.fin (2/100), F32.fin (3/100)] := by
  constructor
  · norm_num [pC1, readyP, Processor.initial, processLoop, stepState, processFrame,
      engineReady, silentRaw, updateVadHistory, windowAfter, shouldSkipFrame,
      toEngineDomain, fromEngineDomain, F32.mulPos, F32.divPos, F32.gtc, F32.ltc,
      padTo, List.range_succ, List.getD]
  · intro h
    simpa using congrArg List.length h

theorem c1_silence_gating_witness :
    (processLoop silentRaw pC1.inputBuffer.length pC1).2.length = 5 ∧
    (processLoop silentRaw pC1.inputBuffer.length pC1).1.silenceCounter = 5 := by
  have h := c1_silence_gating silentRaw pC1 rfl rfl rfl rfl
    (fun f => by show (0 : ℚ) < 1/10; norm_num) (by decide) (by decide)
  exact ⟨h.1, h.2.2.1⟩

theorem feedVads_snoc (p : Processor) (l : List ℚ) (v : ℚ) :
    feedVads p (l ++ [v]) = updateVadHistory (feedVads p l) v := by
  dsimp only [feedVads]
  rw [List.foldl_append]
  rfl

theorem feedVads_const (p : Processor) (v : ℚ)
    (hh : p.vadHistory = []) (hc : p.silenceCounter = 0) :
    ∀ n : ℕ,
      (feedVads p (List.replicate n v)).vadHistory = List.replicate (min n 5) v ∧
      (feedVads p (List.replicate n v)).silenceCounter
        = (if v < p.silenceThreshold then n else 0) ∧
      (feedVads p (List.replicate n v)).silenceThreshold = p.silenceThreshold := by
  intro n
  induction n with
  | zero =>
    refine ⟨?_, ?_, rfl⟩
    · simpa [feedVads] using hh
    · simpa [feedVads] using hc
  | succ n ih =>
    obtain ⟨ih1, ih2, ih3⟩ := ih
    rw [List.replicate_succ', feedVads_snoc]
    have hwa : windowAfter (feedVads p (List.replicate n v)) v
        = List.replicate (min (n+1) 5) v := by
      dsimp only [windowAfter]
      rw [ih1, ← List.replicate_succ', List.length_replicate]
      by_cases h5 : 5 < min n 5 + 1
      · rw [if_pos h5]
        have hm : min n 5 = 5 := by omega
        have hm' : min (n+1) 5 = 5 := by omega
        rw [hm, hm', List.replicate_succ, List.tail_cons]
      · rw [if_neg h5]
        have hm : min n 5 + 1 = min (n+1) 5 := by omega
        rw [hm]
    have hmean : (windowAfter (feedVads p (List.replicate n v)) v).sum
        / ((windowAfter (feedVads p (List.replicate n v)) v).length : ℚ) = v := by
      rw [hwa, List.sum_replicate, List.length_replicate, nsmul_eq_mul]
      have hpos : 0 < min (n+1) 5 := by omega
      have hne : ((min (n+1) 5 : ℕ) : ℚ) ≠ 0 := by
        exact_mod_cast Nat.pos_iff_ne_zero.mp hpos
      exact mul_div_cancel_left₀ v hne
    refine ⟨hwa, ?_, ih3⟩
    dsimp only [updateVadHistory]
    rw [hmean, ih3, ih2]
    by_cases hv : v < p.silenceThreshold
    · simp [hv]
    · simp [hv]

/-- C6: the smoother appends the score and evicts the oldest entry once the
window exceeds 5 entries (never holding more than 5), increments the counter
when the window mean is below threshold and resets it otherwise; a constant
at-or-above-threshold sequence from the initial state never increments the
counter, and a constant below-threshold sequence increments it by exactly one
per frame. -/
theorem c6_vad_update (p : Processor) (v : ℚ) (n : ℕ)
    (hh : p.vadHistory = []) (hc : p.silenceCounter = 0) :
    (∀ q : Processor, ∀ w : ℚ, (updateVadHistory q w).vadHistory = windowAfter q w) ∧
    (∀ q : Processor, ∀ w : ℚ, q.vadHistory.length ≤ 5 →
        (updateVadHistory q w).vadHistory.length ≤ 5) ∧
    (∀ q : Processor, ∀ w : ℚ,
        (updateVadHistory q w).silenceCounter
          = if (windowAfter q w).sum / ((windowAfter q w).length : ℚ) < q.silenceThreshold
            then q.silenceCounter + 1 else 0) ∧
    (p.silenceThreshold ≤ v → (feedVads p (List.replicate n v)).silenceCounter = 0) ∧
    (v < p.silenceThreshold → (feedVads p (List.replicate n v)).silenceCounter = n) := by
  obtain ⟨_, f2, _⟩ := feedVads_const p v hh hc n
  refine ⟨fun q w => rfl, ?_, fun q w => rfl, ?_, ?_⟩
  · intro q w hlen
    exact windowAfter_length_le q w hlen
  · intro hge
    rw [f2, if_neg (not_lt.mpr hge)]
  · intro hlt
    rw [f2, if_pos hlt]

theorem c6_vad_update_witness :
    (feedVads Processor.initial (List.replicate 7 0)).silenceCounter = 7 :=
  (c6_vad_update Processor.initial 0 7 rfl rfl).2.2.2.2
    (by show (0 : ℚ) < 1/10; norm_num)

/-- C9: for x in the interval from -1 to 1 the engine-domain round trip is the
identity: fromEngineDomain (toEngineDomain x) = x, the clamp never firing. -/
theorem c9_domain_round_trip (x : ℚ) (h1 : -1 ≤ x) (h2 : x ≤ 1) :
    fromEngineDomain (toEngineDomain (F32.fin x)) = F32.fin x := by
  have hx : x * 32768 / 32768 = x := by norm_num
  have hgt : F32.gtc (F32.fin x) 1 = false := decide_eq_false (not_lt.mpr h2)
  have hlt : F32.ltc (F32.fin x) (-1) = false := decide_eq_false (not_lt.mpr h1)
  dsimp only [toEngineDomain, fromEngineDomain, F32.mulPos, F32.divPos]
  rw [hx]
  simp [hgt, hlt]

theorem c9_domain_round_trip_witness :
    (-1 : ℚ) ≤ 1/2 ∧ (1/2 : ℚ) ≤ 1 ∧
    fromEngineDomain (toEngineDomain (F32.fin (1/2))) = F32.fin (1/2) :=
  ⟨by norm_num, by norm_num, c9_domain_round_trip (1/2) (by norm_num) (by norm_num)⟩

/-- C5 amended: processFrame is total (never throws); when the adapter is not
initialized it returns the caller's frame with vad 0; when the engine-call
path fails it returns the size-adjusted frame — the caller's frame itself when
its length already equals frameSize, else its zero-padded/truncated copy —
with vad 0. -/
theorem c5_process_frame_fallback (raw : Raw) (p : Processor) (frame : List F32) :
    (engineReady p = false → processFrame raw p frame = (frame, 0)) ∧
    (engineReady p = true →
      raw ((if frame.length ≠ p.frameSize then padTo p.frameSize frame else frame).map
          toEngineDomain) = none →
      processFrame raw p frame
        = ((if frame.length ≠ p.frameSize then padTo p.frameSize frame else frame), 0)) ∧
    (engineReady p = true → frame.length = p.frameSize →
      raw (frame.map toEngineDomain) = none →
      processFrame raw p frame = (frame, 0)) := by
  refine ⟨?_, ?_, ?_⟩
  · intro h
    simp [processFrame, h]
  · intro h hraw
    simp only [processFrame, h, Bool.not_true, Bool.false_eq_true, if_false, hraw]
    simp
  · intro h hlen hraw
    have hif : (if frame.length ≠ p.frameSize then padTo p.frameSize frame else frame)
        = frame := by
      rw [if_neg (by simp [hlen])]
    simp only [processFrame, h, Bool.not_true, Bool.false_eq_true, if_false, hif, hraw]
    simp

theorem c5_process_frame_fallback_counterexample :
    processFrame (fun _ => none) (readyP 2) [F32.fin 1]
      = ([F32.fin 1, F32.fin 0], 0) ∧
    (([F32.fin 1, F32.fin 0], (0:ℚ)) : List F32 × ℚ) ≠ (([F32.fin 1] : List F32), 0) := by
  constructor
  · rfl
  · intro h
    simpa using congrArg (fun t => t.1.length) h

theorem c5_process_frame_fallback_witness :
    engineReady (readyP 2) = true ∧
    (([F32.fin 1, F32.fin 0] : List F32)).length = (readyP 2).frameSize ∧
    processFrame (fun _ => none) (readyP 2) [F32.fin 1, F32.fin 0]
      = ([F32.fin 1, F32.fin 0], 0) :=
  ⟨rfl, rfl,
    (c5_process_frame_fallback (fun _ => none) (readyP 2) [F32.fin 1, F32.fin 0]).2.2
      rfl rfl rfl⟩

/-- C3 amended: with two or more channels, each output sample at an index of
the first channel is 0 (not NaN) when no channel holds a finite value there
and the arithmetic mean of the finite values otherwise; a single channel is
returned as a verbatim copy, so a non-finite value passes through. -/
theorem c3_merge_channels (channels : List (List F32)) (i : ℕ)
    (h2 : 2 ≤ channels.length) (hi : i < (channels.headD []).length) :
    ((mergeChannels channels)[i]? = some (mergeAt channels i)) ∧
    (finVals channels i = [] → mergeAt channels i = F32.fin 0) ∧
    (finVals channels i ≠ [] → mergeAt channels i
        = F32.fin ((finVals channels i).sum / ((finVals channels i).length : ℚ))) ∧
    (∀ c : List F32, mergeChannels [c] = c) := by
  refine ⟨?_, ?_, ?_, fun c => rfl⟩
  · rcases channels with _ | ⟨c0, _ | ⟨c1, t⟩⟩
    · simp at h2
    · simp at h2
    · simp only [List.headD_cons] at hi
      dsimp only [mergeChannels]
      rw [List.getElem?_map, List.getElem?_range hi]
      rfl
  · intro h0
    dsimp only [mergeAt]
    rw [h0]
    simp
  · intro hne
    dsimp only [mergeAt]
    rw [if_pos (List.length_pos.mpr hne)]

theorem c3_merge_channels_counterexample :
    mergeChannels [[F32.nan]] = [F32.nan] ∧ ([F32.nan] : List F32) ≠ [F32.fin 0] := by
  refine ⟨rfl, ?_⟩
  decide

theorem c3_merge_channels_witness :
    2 ≤ ([[F32.nan], [F32.nan]] : List (List F32)).length ∧
    0 < (([[F32.nan], [F32.nan]] : List (List F32)).headD []).length ∧
    (mergeChannels [[F32.nan], [F32.nan]])[0]?
      = some (mergeAt [[F32.nan], [F32.nan]] 0) ∧
    mergeAt [[F32.nan], [F32.nan]] 0 = F32.fin 0 := by
  have h := c3_merge_channels [[F32.nan], [F32.nan]] 0 (by decide) (by decide)
  exact ⟨by decide, by decide, h.1, h.2.1 rfl⟩

/-- C4 amended: when not destroyed and the engine is not ready the callback
delegates to passthrough and returns true; passthrough broadcasts the first
channel of the first input source into every destination channel, truncating
when the destination is shorter and writing only the source-length prefix
(leaving the remainder of a longer destination untouched, not zero-extended);
with no input channel present every destination channel is zero-filled. -/
theorem c4_passthrough (raw : Raw) (p : Processor)
    (inputs outputs : List (List (List F32)))
    (h1 : p.isDestroy = false) (h2 : engineReady p = false) :
    process raw p inputs outputs = (true, p, outputPassthrough inputs outputs) ∧
    outputPassthrough inputs outputs
      = (match inputs with
         | [] => outputSilence outputs
         | [] :: _ => outputSilence outputs
         | (src :: _) :: _ =>
           outputs.map (fun output => output.map (fun channel =>
             src.take (min src.length channel.length)
               ++ channel.drop (min src.length channel.length)))) ∧
    outputSilence outputs
      = outputs.map (fun output => output.map (fun channel =>
          List.replicate channel.length (F32.fin 0))) := by
  refine ⟨?_, ?_, rfl⟩
  · simp [process, h1, h2]
  · rcases inputs with _ | ⟨src0, rest⟩
    · rfl
    rcases src0 with _ | ⟨src, chs⟩
    · rfl
    · dsimp only [outputPassthrough]
      have hch : ∀ ch : List F32,
          (if ch.length = src.length then src else setFront src src.length ch)
            = src.take (min src.length ch.length) ++ ch.drop (min src.length ch.length) := by
        intro ch
        by_cases hlen : ch.length = src.length
        · rw [if_pos hlen, hlen, min_self, List.take_length, ← hlen, List.drop_length,
            List.append_nil]
        · rw [if_neg hlen]
          dsimp only [setFront]
      simp only [hch]

theorem c4_passthrough_counterexample :
    outputPassthrough [[[F32.fin 1]]] [[[F32.fin 2, F32.fin 3]]]
      = [[[F32.fin 1, F32.fin 3]]] ∧
    ([[[F32.fin 1, F32.fin 3]]] : List (List (List F32)))
      ≠ [[[F32.fin 1, F32.fin 0]]] := by
  refine ⟨rfl, ?_⟩
  decide

theorem c4_passthrough_witness :
    Processor.initial.isDestroy = false ∧ engineReady Processor.initial = false ∧
    process silentRaw Processor.initial [[[F32.fin 1]]] [[[F32.fin 2, F32.fin 3]]]
      = (true, Processor.initial,
          outputPassthrough [[[F32.fin 1]]] [[[F32.fin 2, F32.fin 3]]]) :=
  ⟨rfl, rfl,
    (c4_passthrough silentRaw Processor.initial [[[F32.fin 1]]] [[[F32.fin 2, F32.fin 3]]]
      rfl rfl).1⟩

theorem chanFold_le_init (out : List (List F32)) :
    ∀ a : ℕ, out.foldl (fun a ch => min a ch.length) a ≤ a := by
  induction out with
  | nil => intro a; exact le_rfl
  | cons ch t ih =>
    intro a
    exact le_trans (ih (min a ch.length)) (min_le_left _ _)

theorem chanFold_le_mem (out : List (List F32)) :
    ∀ (a : ℕ) (ch : List F32), ch ∈ out →
      out.foldl (fun a ch => min a ch.length) a ≤ ch.length := by
  induction out with
  | nil => intro a ch h; simp at h
  | cons c t ih =>
    intro a ch h
    rcases List.mem_cons.mp h with h | h
    · subst h
      exact le_trans (chanFold_le_init t _) (min_le_right _ _)
    · exact ih _ ch h

theorem minQuantum_le_start (outputs : List (List (List F32))) :
    ∀ s : ℕ, minQuantum outputs s ≤ s := by
  induction outputs with
  | nil => intro s; exact le_rfl
  | cons out t ih =>
    intro s
    exact le_trans (ih _) (chanFold_le_init out s)

theorem minQuantum_le_chan (outputs : List (List (List F32))) :
    ∀ (s : ℕ) (out : List (List F32)) (ch : List F32), out ∈ outputs → ch ∈ out →
      minQuantum outputs s ≤ ch.length := by
  induction outputs with
  | nil => intro s out ch h; simp at h
  | cons o t ih =>
    intro s out ch hout hch
    rcases List.mem_cons.mp hout with h | h
    · subst h
      exact le_trans (minQuantum_le_start t _) (chanFold_le_mem out s ch hch)
    · exact ih _ out ch h hch

/-- C8: fill copies the minimum of the queue length and every destination
channel length leading samples identically into every destination channel
(leaving the rest of each channel untouched) and removes exactly that prefix
from the queue; an empty queue is a no-op, and a request larger than the
queue consumes it entirely. -/
theorem c8_output_to_channels (buf : List F32) (outputs : List (List (List F32))) :
    (outputToChannels buf outputs).1 = buf.drop (minQuantum outputs buf.length) ∧
    (outputToChannels buf outputs).2
      = outputs.map (fun output => output.map (fun channel =>
          buf.take (minQuantum outputs buf.length)
            ++ channel.drop (minQuantum outputs buf.length))) ∧
    (buf = [] → outputToChannels buf outputs = (buf, outputs)) ∧
    (minQuantum outputs buf.length = buf.length →
      (outputToChannels buf outputs).1 = []) := by
  have hk_le : minQuantum outputs buf.length ≤ buf.length := minQuantum_le_start outputs _
  have hmain : (outputToChannels buf outputs).1
        = buf.drop (minQuantum outputs buf.length) ∧
      (outputToChannels buf outputs).2
        = outputs.map (fun output => output.map (fun channel =>
            buf.take (minQuantum outputs buf.length)
              ++ channel.drop (minQuantum outputs buf.length))) := by
    dsimp only [outputToChannels]
    by_cases h0 : buf.length = 0
    · rw [if_pos h0]
      have hbuf : buf = [] := List.length_eq_zero.mp h0
      have hk0 : minQuantum outputs buf.length = 0 := Nat.le_zero.mp (h0 ▸ hk_le)
      rw [hk0]
      subst hbuf
      constructor
      · simp
      · simp
    · rw [if_neg h0]
      by_cases hsc : minQuantum outputs buf.length = 0
      · rw [if_pos hsc, hsc]
        constructor
        · simp
        · simp
      · rw [if_neg hsc]
        constructor
        · by_cases hlt : minQuantum outputs buf.length < buf.length
          · rw [if_pos hlt]
          · rw [if_neg hlt]
            have heq : minQuantum outputs buf.length = buf.length :=
              le_antisymm hk_le (not_lt.mp hlt)
            rw [heq, List.drop_length]
        · apply List.map_congr_left
          intro out hout
          apply List.map_congr_left
          intro ch hch
          dsimp only [setFront]
          have hmin : min (minQuantum outputs buf.length) ch.length
              = minQuantum outputs buf.length :=
            min_eq_left (minQuantum_le_chan outputs _ out ch hout hch)
          rw [hmin]
  refine ⟨hmain.1, hmain.2, ?_, ?_⟩
  · intro hbuf
    subst hbuf
    dsimp only [outputToChannels]
    simp
  · intro hfull
    rw [hmain.1, hfull, List.drop_length]

theorem c8_output_to_channels_witness :
    minQuantum [[[F32.fin 0, F32.fin 0, F32.fin 0]]]
        ([F32.fin 1, F32.fin 2] : List F32).length
      = ([F32.fin 1, F32.fin 2] : List F32).length ∧
    (outputToChannels [F32.fin 1, F32.fin 2] [[[F32.fin 0, F32.fin 0, F32.fin 0]]]).1
      = [] := by
  refine ⟨rfl, ?_⟩
  exact (c8_output_to_channels [F32.fin 1, F32.fin 2]
    [[[F32.fin 0, F32.fin 0, F32.fin 0]]]).2.2.2 rfl

/-- C10: in the Ready state, when the first input source is absent or has zero
channels, the callback zero-fills every destination channel, returns true and
leaves the processor state — both queues included — unchanged. -/
theorem c10_ready_silence (raw : Raw) (p : Processor)
    (inputs outputs : List (List (List F32)))
    (h1 : p.isDestroy = false) (h2 : engineReady p = true)
    (h3 : inputs.headD [] = []) :
    process raw p inputs outputs = (true, p, outputSilence outputs) ∧
    outputSilence outputs = outputs.map (fun output => output.map (fun channel =>
      List.replicate channel.length (F32.fin 0))) := by
  refine ⟨?_, rfl⟩
  rcases inputs with _ | ⟨src, rest⟩
  · simp [process, h1, h2]
  · have hsrc : src = [] := by simpa using h3
    subst hsrc
    simp [process, h1, h2]

theorem c10_ready_silence_witness :
    (readyP 1).isDestroy = false ∧ engineReady (readyP 1) = true ∧
    (([([] : List (List F32))]).headD [] = ([] : List (List F32))) ∧
    process silentRaw (readyP 1) [[]] [[[F32.fin 5]]]
      = (true, readyP 1, outputSilence [[[F32.fin 5]]]) :=
  ⟨rfl, rfl, rfl,
    (c10_ready_silence silentRaw (readyP 1) [[]] [[[F32.fin 5]]] rfl rfl rfl).1⟩

/-- C7: teardown is idempotent: the first destroy releases the engine handle
and both scratch regions exactly once (in call order), the second destroy
performs no release at all, does not fail, and leaves the state destroyed and
unchanged. -/
theorem c7_destroy_idempotent (p : Processor)
    (h1 : p.rnnoiseModule = true) (h2 : p.state ≠ 0)
    (h3 : p.pcmInputBuf ≠ 0) (h4 : p.pcmOutputBuf ≠ 0) :
    (destroy p).2 = [DestroyEvent.rnnoiseDestroy p.state,
      DestroyEvent.free p.pcmInputBuf, DestroyEvent.free p.pcmOutputBuf] ∧
    (destroy (destroy p).1).2 = [] ∧
    (destroy (destroy p).1).1.isDestroy = true ∧
    (destroy (destroy p).1).1 = (destroy p).1 := by
  obtain ⟨d, m, F, st, ib, ob, mem, inb, outb, vh, thr, sc, msf⟩ := p
  dsimp only at h1 h2 h3 h4
  subst h1
  refine ⟨?_, ?_, ?_, ?_⟩ <;> simp [destroy, h2, h3, h4]

theorem c7_destroy_idempotent_witness :
    (destroy pC7).2 = [DestroyEvent.rnnoiseDestroy 5, DestroyEvent.free 7,
      DestroyEvent.free 9] ∧
    (destroy (destroy pC7).1).2 = [] ∧
    (destroy (destroy pC7).1).1.isDestroy = true := by
  have h := c7_destroy_idempotent pC7 rfl (by decide) (by decide) (by decide)
  exact ⟨h.1, h.2.1, h.2.2.1⟩

end Rnnoise
